import Mathlib

/-!
Verification development for the flagrant flag-description DSL.

The definitions below are a shallow embedding of `src/lib.rs` (the library
crate, which is the current generation of the design; `src/main.rs` is a
legacy snapshot of an older binary-pivot variant and `src/bin/flagc.rs` is
a thin driver over the library). Rust conventions are mapped as follows:

* `Option<T>` becomes `Option T`; the `?` operator becomes explicit
  `match`/`bind`-style propagation.
* Strings are modelled as `List Char` (Rust iterates over `char`s);
  byte-based operations (`str::len`, `starts_with`) are modelled through
  the UTF-8 byte size of the character list.
* `u32` values are modelled as `Nat`.  The arithmetic performed by the
  library (weight sums, `pivot * width / total`) never relies on wrapping;
  a `u32` overflow is a Rust panic (debug profile) and is outside the
  behaviours claimed by the specification, so no `% 2^32` reduction is
  inserted.  Division by zero, which Rust always panics on, IS modelled:
  the drawing functions return `Option`, with `none` standing for the
  panic.
* `Rc<T>` sharing is irrelevant to the observable values and becomes plain
  nesting.
* `HashMap<String, Rc<UnresolvedFlagGeometry>>` is modelled as an
  association list written in insertion order, looked up with
  last-write-wins semantics (`HashMap::insert` and `Extend::extend`
  overwrite earlier bindings for the same key).
-/

/-! ## Colors (`enum Color`, `to_hex_color`, `impl FromStr for Color`) -/

/-- `enum Color` from src/lib.rs.  `Rgb` carries the three channel bytes of
`image::Rgb<u8>` as naturals (each produced `< 256`). -/
inductive Color where
  | Blue : Color
  | Green : Color
  | Red : Color
  | White : Color
  | Yellow : Color
  | Black : Color
  | Rgb : Nat → Nat → Nat → Color
  deriving DecidableEq

/-- `Color::to_rgb`, returning the `[r, g, b]` triple of `image::Rgb<u8>`. -/
def Color.toRgb : Color → Nat × Nat × Nat
  | .Blue => (0, 0, 255)
  | .Green => (0, 255, 0)
  | .Red => (255, 0, 0)
  | .White => (255, 255, 255)
  | .Yellow => (255, 255, 0)
  | .Black => (0, 0, 0)
  | .Rgb r g b => (r, g, b)

/-- `char::to_digit(16)`: the value of a hexadecimal digit
(`0-9`, `a-f`, `A-F`), or `none`. -/
def hexDigitVal? (c : Char) : Option Nat :=
  if '0' ≤ c ∧ c ≤ '9' then some (c.toNat - '0'.toNat)
  else if 'a' ≤ c ∧ c ≤ 'f' then some (c.toNat - 'a'.toNat + 10)
  else if 'A' ≤ c ∧ c ≤ 'F' then some (c.toNat - 'A'.toNat + 10)
  else none

/-- `str::len` of the string holding these characters: the total UTF-8 byte
count (Rust string lengths are byte lengths). -/
def utf8Length (s : List Char) : Nat := (s.map Char.utf8Size).sum

/-- `to_hex_color` from src/lib.rs.  `input.starts_with("#")` is the
byte-prefix test, equivalent to the first character being `'#'`;
`input[1..]` then drops that one-byte character.  The `as u8` cast is exact
because `to_digit(16)` yields values below 16. -/
def toHexColor (input : List Char) : Option (Nat × Nat × Nat) :=
  if utf8Length input ≠ 7 then none
  else if input.head? ≠ some '#' then none
  else
    match (input.drop 1).filterMap hexDigitVal? with
    | [h0, h1, h2, h3, h4, h5] =>
      some ((h0 <<< 4) ||| h1, (h2 <<< 4) ||| h3, (h4 <<< 4) ||| h5)
    | _ => none

/-- `<Color as FromStr>::from_str` from src/lib.rs (the guard
`to_hex_color(s).is_some()` followed by `to_hex_color(s).ok_or(())` is a
single evaluation of `to_hex_color`). -/
def colorFromStr (s : List Char) : Option Color :=
  if s = ['b'] then some .Blue
  else if s = ['g'] then some .Green
  else if s = ['r'] then some .Red
  else if s = ['w'] then some .White
  else if s = ['y'] then some .Yellow
  else if s = ['s'] then some .Black
  else
    match toHexColor s with
    | some (r, g, b) => some (.Rgb r g b)
    | none => none

/-! ## S-expressions and the parser (`enum SExpr`, `SExpr::parse`) -/

/-- `enum SExpr` from src/lib.rs: `List(Vec<SExpr>)` / `Literal(String)`. -/
inductive SExpr where
  | slist : List SExpr → SExpr
  | lit : List Char → SExpr

/-- `SExpr::list`. -/
def SExpr.asList : SExpr → Option (List SExpr)
  | .slist l => some l
  | .lit _ => none

/-- `SExpr::literal`. -/
def SExpr.asLiteral : SExpr → Option (List Char)
  | .lit s => some s
  | .slist _ => none

/-- The trailing loop of `SExpr::parse` that peeks and consumes whitespace
until a non-whitespace character (or the end of input) is reached. -/
def skipWs : List Char → List Char
  | [] => []
  | c :: rest => if c.isWhitespace then skipWs rest else c :: rest

/-- How one call of `SExpr::parse` hands the iterator back to its caller:
`done s rest` is a normal return of `s` with `rest` left unconsumed, while
`abort rest` is the early `return None` taken by the `?` operator on the
recursive call `list.push(SExpr::parse(input)?)`. -/
inductive ParseOut where
  | done : Option SExpr → List Char → ParseOut
  | abort : List Char → ParseOut

/-- The iterator state carried by either outcome. -/
def ParseOut.rest : ParseOut → List Char
  | .done _ r => r
  | .abort r => r

/-- Termination measure helper: the main loop of `SExpr::parse` re-enters
itself (through the recursive `SExpr::parse` call) without consuming a
character only when the accumulator holds a `List`. -/
def stateRank : Option SExpr → Nat
  | some (.slist _) => 1
  | _ => 0

/-- The `while let Some(c) = input.peek()` loop of `SExpr::parse`, with the
loop-carried `sexpr` accumulator as first argument.  Each arm mirrors one
`match` arm of the Rust loop; the recursive call in the `Some(List)` arm is
the whole of `SExpr::parse` (loop plus trailing whitespace skip), and its
`None` result triggers the `?` early return (`abort`).  The `dite` guard in
that arm exists only to justify termination; `parseLoop_none_shrinks` below
proves it always holds, and `parseLoop_slist_cons` restates the arm without
it. -/
def parseLoop : Option SExpr → List Char → ParseOut
  | st, [] => .done st []
  | none, c :: rest =>
    if c.isWhitespace then parseLoop none rest
    else if c = '(' then parseLoop (some (.slist [])) rest
    else parseLoop (some (.lit [c])) rest
  | some (.slist l), c :: rest =>
    if c = ')' then .done (some (.slist l)) rest
    else
      match parseLoop none (c :: rest) with
      | .abort r => .abort r
      | .done none r => .abort (skipWs r)
      | .done (some child) r =>
        if h : (skipWs r).length < rest.length + 1 then
          parseLoop (some (.slist (l ++ [child]))) (skipWs r)
        else
          .abort (skipWs r)
  | some (.lit s), c :: rest =>
    if c.isWhitespace ∨ c = ')' then .done (some (.lit s)) (c :: rest)
    else parseLoop (some (.lit (s ++ [c]))) rest
termination_by st input => (input.length, stateRank st)
decreasing_by
  · exact Prod.Lex.left _ _ (by simp)
  · exact Prod.Lex.left _ _ (by simp)
  · exact Prod.Lex.left _ _ (by simp)
  · exact Prod.Lex.right _ (by simp [stateRank])
  · exact Prod.Lex.left _ _ (by simpa using h)
  · exact Prod.Lex.left _ _ (by simp)

/-- `SExpr::parse`: run the main loop starting from `sexpr = None`, then on
a normal exit skip trailing whitespace.  The early `return None` (`abort`)
skips the trailing whitespace loop.  The returned pair is the result
together with the final iterator state. -/
def parseTop (input : List Char) : Option SExpr × List Char :=
  match parseLoop none input with
  | .done s r => (s, skipWs r)
  | .abort r => (none, r)

/-! ## Geometry data model -/

mutual
/-- `enum UnresolvedFlagGeometry` from src/lib.rs.  Tag names (Rust
`String`) are character lists, like parsed literals. -/
inductive UnresolvedFlagGeometry where
  | Solid : Color → UnresolvedFlagGeometry
  | Horizontal : List UnresolvedFlagElement → UnresolvedFlagGeometry
  | Vertical : List UnresolvedFlagElement → UnresolvedFlagGeometry
  | Tag : List Char → UnresolvedFlagGeometry → UnresolvedFlagGeometry
  | Reference : List Char → UnresolvedFlagGeometry

/-- `struct UnresolvedFlagElement(UnresolvedFlagGeometry, u32)`: a child
geometry together with its weight. -/
inductive UnresolvedFlagElement where
  | mk : UnresolvedFlagGeometry → Nat → UnresolvedFlagElement
end

mutual
/-- `enum FlagGeometry` from src/lib.rs (the resolved tree: no
`Tag`/`Reference` variants). -/
inductive FlagGeometry where
  | Solid : Color → FlagGeometry
  | Horizontal : List FlagElement → FlagGeometry
  | Vertical : List FlagElement → FlagGeometry

/-- `struct FlagElement(FlagGeometry, u32)`. -/
inductive FlagElement where
  | mk : FlagGeometry → Nat → FlagElement
end

/-! ## Tag collection and resolution
(`UnresolvedFlagGeometry::tags`, `UnresolvedFlagGeometry::resolve`) -/

/-- The `HashMap<String, Rc<UnresolvedFlagGeometry>>` of tag bindings,
modelled as an association list in insertion order; `lookupTag` reads it
with the map's last-write-wins semantics. -/
abbrev TagMap := List (List Char × UnresolvedFlagGeometry)

/-- `HashMap::get`: the most recently inserted binding for `k`, if any. -/
def lookupTag (m : TagMap) (k : List Char) : Option UnresolvedFlagGeometry :=
  (m.reverse.find? (fun p => decide (p.1 = k))).map (fun p => p.2)

mutual
/-- `UnresolvedFlagGeometry::tags`.  In the `Tag` arm the map first absorbs
the nested geometry's bindings (`map.extend(geo.tags())`) and then the
binding for this tag (`map.insert(tag, geo)`), so the latter is appended
last and wins on collision; in the split arms the children's bindings are
absorbed in child order. -/
def UnresolvedFlagGeometry.tags : UnresolvedFlagGeometry → TagMap
  | .Solid _ => []
  | .Reference _ => []
  | .Tag t g => g.tags ++ [(t, g)]
  | .Horizontal elements => tagsOfElements elements
  | .Vertical elements => tagsOfElements elements

/-- `elements.iter().flat_map(|el| el.0.tags())`, absorbed in order. -/
def tagsOfElements : List UnresolvedFlagElement → TagMap
  | [] => []
  | .mk g _ :: rest => g.tags ++ tagsOfElements rest
end

/-- `UnresolvedFlagGeometry::resolve`, indexed by recursion fuel.  The Rust
function recurses without any bound and diverges on cyclic tag references,
so the embedding makes the call depth explicit: every recursive call
consumes one unit of fuel.  The OUTER `Option` is the fuel monitor (`none`
means the call did not finish within the given depth; Rust's behaviour is
the common value of all sufficiently large fuels, when one exists).  The
INNER `Option` is the Rust function's own `Option<FlagGeometry>`: in the
split arms `elements.iter().filter_map(|x| x.resolve(tags))` drops children
that resolve to `None` (the body of `UnresolvedFlagElement::resolve` is
inlined in the `mapM` argument), and a `Reference` whose name is absent
from the table yields `None`. -/
def resolveF : Nat → UnresolvedFlagGeometry → TagMap → Option (Option FlagGeometry)
  | 0, _, _ => none
  | fuel + 1, g, table =>
    match g with
    | .Solid color => some (some (.Solid color))
    | .Horizontal elements =>
      match elements.mapM (fun el =>
          match el with
          | .mk geo weight =>
            (resolveF fuel geo table).map (Option.map (fun fg => FlagElement.mk fg weight))) with
      | none => none
      | some opts => some (some (.Horizontal (opts.filterMap id)))
    | .Vertical elements =>
      match elements.mapM (fun el =>
          match el with
          | .mk geo weight =>
            (resolveF fuel geo table).map (Option.map (fun fg => FlagElement.mk fg weight))) with
      | none => none
      | some opts => some (some (.Vertical (opts.filterMap id)))
    | .Tag _ geo => resolveF fuel geo table
    | .Reference tag =>
      match lookupTag table tag with
      | none => some none
      | some geo => resolveF fuel geo table

/-! ## Geometry builder (`SExpr::to_flag_geometry`) -/

/-- The value of a decimal digit string, most significant digit first. -/
def decimalValue (s : List Char) : Nat :=
  s.foldl (fun a c => 10 * a + (c.toNat - '0'.toNat)) 0

/-- `str::parse::<u32>().ok()`: an optional leading `+`, then at least one
ASCII decimal digit, with a value below `2^32` (overflow is an error). -/
def parseU32? (s : List Char) : Option Nat :=
  let digits := match s with
                | '+' :: rest => rest
                | _ => s
  if digits ≠ [] ∧ digits.all (fun c => decide ('0' ≤ c ∧ c ≤ '9')) then
    if decimalValue digits < 2 ^ 32 then some (decimalValue digits) else none
  else none

/-- `Iterator::step_by(2)`: every second element, starting with the first. -/
def stepBy2 : List α → List α
  | [] => []
  | [x] => [x]
  | x :: _ :: rest => x :: stepBy2 rest

mutual
/-- Node count of an s-expression; termination measure only. -/
def sexprSize : SExpr → Nat
  | .lit _ => 1
  | .slist l => listSexprSize l + 1

/-- Node count of a list of s-expressions; termination measure only. -/
def listSexprSize : List SExpr → Nat
  | [] => 0
  | x :: rest => sexprSize x + listSexprSize rest + 1
end

/-- Termination measure for `buildElements`: total size of the
s-expression components of the weight/geometry pairs. -/
def pairListSize (ps : List (Nat × SExpr)) : Nat :=
  (ps.map (fun p => sexprSize p.2)).sum + ps.length

theorem listSexprSize_append (a b : List SExpr) :
    listSexprSize (a ++ b) = listSexprSize a + listSexprSize b := by
  induction a with
  | nil => simp [listSexprSize]
  | cons x rest ih =>
    simp only [List.cons_append, listSexprSize, List.append_eq, ih]; omega

theorem listSexprSize_stepBy2_le (l : List SExpr) :
    listSexprSize (stepBy2 l) ≤ listSexprSize l := by
  induction l using stepBy2.induct with
  | case1 => simp [stepBy2]
  | case2 x => simp [stepBy2]
  | case3 x y rest ih =>
    simp only [stepBy2, listSexprSize] at *
    omega

theorem listSexprSize_drop_le (n : Nat) (l : List SExpr) :
    listSexprSize (l.drop n) ≤ listSexprSize l := by
  obtain ⟨pre, hpre⟩ : l.drop n <:+ l := List.drop_suffix n l
  calc listSexprSize (l.drop n)
      ≤ listSexprSize pre + listSexprSize (l.drop n) := by omega
    _ = listSexprSize l := by rw [← listSexprSize_append, hpre]

theorem pairListSize_zip_le (ws : List Nat) (gs : List SExpr) :
    pairListSize (ws.zip gs) ≤ listSexprSize gs := by
  induction ws generalizing gs with
  | nil => simp [pairListSize]
  | cons w ws ih =>
    cases gs with
    | nil => simp [pairListSize]
    | cons g gs =>
      have := ih gs
      simp only [List.zip_cons_cons, pairListSize, listSexprSize, List.map_cons,
        List.sum_cons, List.length_cons] at *
      omega

mutual
/-- `SExpr::to_flag_geometry` from src/lib.rs.  The Rust `match` arms are
reproduced by first-match dispatch on the list's length and operator; when
an arm's guard `op.literal()?` hits a non-literal operator, the Rust `?`
returns `None` for the whole call, which coincides with falling through to
the final `None` here (no later arm can produce a value for a non-literal
operator).  The dead duplicate `v` arm (`unimplemented!`, shadowed by the
`h`/`v` arm before it) is omitted. -/
def toFlagGeometry : SExpr → Option UnresolvedFlagGeometry
  | .lit _ => none
  | .slist l =>
    match l with
    | [op, c] =>
      if op.asLiteral = some ['s'] then
        match c.asLiteral with
        | some litChars =>
          match colorFromStr litChars with
          | some color => some (.Solid color)
          | none => none
        | none => none
      else if op.asLiteral = some ['h'] ∨ op.asLiteral = some ['v'] then
        buildSplit op [op, c]
      else if op.asLiteral = some ['r'] then
        match c.asLiteral with
        | some tag => some (.Reference tag)
        | none => none
      else none
    | [op, tagName, geoExpr] =>
      if op.asLiteral = some ['h'] ∨ op.asLiteral = some ['v'] then
        buildSplit op [op, tagName, geoExpr]
      else if op.asLiteral = some ['t'] then
        match tagName.asLiteral with
        | some tag =>
          match toFlagGeometry geoExpr with
          | some geo => some (.Tag tag geo)
          | none => none
        | none => none
      else none
    | op :: restArgs =>
      if op.asLiteral = some ['h'] ∨ op.asLiteral = some ['v'] then
        buildSplit op (op :: restArgs)
      else none
    | [] => none
termination_by s => 2 * sexprSize s
decreasing_by
  · simp only [sexprSize, listSexprSize]; omega
  · simp only [sexprSize, listSexprSize]; omega
  · simp only [sexprSize, listSexprSize]; omega
  · simp only [sexprSize, listSexprSize]; omega

/-- The body of the `h`/`v` arm of `to_flag_geometry`: weights are every
second node from index 1 that is a literal parsing as `u32` (non-parsing
entries are FILTERED OUT, not kept as placeholders), geometries every
second node from index 2, zipped (so the zip stops at the shorter side);
at the end the operator is matched again to pick the axis. -/
def buildSplit (op : SExpr) (l : List SExpr) : Option UnresolvedFlagGeometry :=
  match buildElements ((((stepBy2 (l.drop 1)).filterMap SExpr.asLiteral).filterMap
      parseU32?).zip (stepBy2 (l.drop 2))) with
  | none => none
  | some elements =>
    match op.asLiteral with
    | some ['h'] => some (.Horizontal elements)
    | some ['v'] => some (.Vertical elements)
    | _ => none
termination_by 2 * listSexprSize l + 1
decreasing_by
  have h1 := pairListSize_zip_le
    (((stepBy2 (l.drop 1)).filterMap SExpr.asLiteral).filterMap parseU32?)
    (stepBy2 (l.drop 2))
  have h2 := listSexprSize_stepBy2_le (l.drop 2)
  have h3 := listSexprSize_drop_le 2 l
  omega

/-- The `for (weight, geo) in weights.zip(geos)` loop of the `h`/`v` arm:
each geometry is built with `geo.to_flag_geometry()?` — a failure aborts
the WHOLE arm via `?` — and pushed with its weight. -/
def buildElements : List (Nat × SExpr) → Option (List UnresolvedFlagElement)
  | [] => some []
  | (weight, geoExpr) :: rest =>
    match toFlagGeometry geoExpr with
    | some geo =>
      match buildElements rest with
      | some elements => some (.mk geo weight :: elements)
      | none => none
    | none => none
termination_by ps => 2 * pairListSize ps
decreasing_by
  · simp only [pairListSize, List.map_cons, List.sum_cons, List.length_cons]; omega
  · simp only [pairListSize, List.map_cons, List.sum_cons, List.length_cons]; omega
end

/-! ## Layout / render engine (`FlagGeometry::draw_area`, `MsPaint`) -/

/-- One call to `MsPaint::rectangle(left, top, width, height, color)`. -/
structure Rect where
  left : Nat
  top : Nat
  width : Nat
  height : Nat
  color : Color
  deriving DecidableEq

/-- `elements.iter().map(|x| x.1).sum()`: the total weight of a split. -/
def sumWeights (elements : List FlagElement) : Nat :=
  (elements.map (fun el => match el with | .mk _ w => w)).sum

mutual
/-- `FlagGeometry::draw_area` from src/lib.rs, returning the sequence of
`rectangle` calls it issues on the canvas.  A `u32` division by zero —
`(pivot * width) / total` with `total = 0`, reached exactly when a split
has at least one child and zero total weight — is a Rust panic, modelled
as `none` (an empty split never reaches the division and draws nothing). -/
def drawArea : FlagGeometry → Nat → Nat → Nat → Nat → Option (List Rect)
  | .Solid color, left, top, width, height => some [⟨left, top, width, height, color⟩]
  | .Horizontal elements, left, top, width, height =>
    drawElemsH elements (sumWeights elements) left top width height
  | .Vertical elements, left, top, width, height =>
    drawElemsV elements (sumWeights elements) left top width height

/-- The child loop of the `Horizontal` arm: `element_width = (pivot *
width) / total`, drawn at the running `offset`, which then advances by
`element_width`. -/
def drawElemsH : List FlagElement → Nat → Nat → Nat → Nat → Nat → Option (List Rect)
  | [], _, _, _, _, _ => some []
  | .mk geo pivot :: rest, total, offset, top, width, height =>
    if total = 0 then none
    else
      match drawArea geo offset top (pivot * width / total) height with
      | none => none
      | some rs =>
        match drawElemsH rest total (offset + pivot * width / total) top width height with
        | none => none
        | some rs2 => some (rs ++ rs2)

/-- The child loop of the `Vertical` arm: `element_height = (pivot *
height) / total`, drawn at the running vertical `offset`. -/
def drawElemsV : List FlagElement → Nat → Nat → Nat → Nat → Nat → Option (List Rect)
  | [], _, _, _, _, _ => some []
  | .mk geo pivot :: rest, total, left, offset, width, height =>
    if total = 0 then none
    else
      match drawArea geo left offset width (pivot * height / total) with
      | none => none
      | some rs =>
        match drawElemsV rest total left (offset + pivot * height / total) width height with
        | none => none
        | some rs2 => some (rs ++ rs2)
end

/-- `FlagGeometry::draw`: render over the canvas's full width and height. -/
def draw (g : FlagGeometry) (canvasWidth canvasHeight : Nat) : Option (List Rect) :=
  drawArea g 0 0 canvasWidth canvasHeight

/-- A pixel grid, indexed `(x, y)`, holding `[r, g, b]` byte triples. -/
abbrev Canvas := Nat → Nat → Nat × Nat × Nat

/-- Whether `<RgbImage as MsPaint>::rectangle(left, top, width, height, _)`
writes pixel `(x, y)`: its loops cover `left ≤ x < left + width`,
`top ≤ y < top + height`. -/
def Rect.covers (r : Rect) (x y : Nat) : Prop :=
  r.left ≤ x ∧ x < r.left + r.width ∧ r.top ≤ y ∧ y < r.top + r.height

instance (r : Rect) (x y : Nat) : Decidable (r.covers x y) := by
  unfold Rect.covers; infer_instance

/-- The effect of one `rectangle` call on the canvas: every covered pixel
is overwritten with the color's rgb triple, the rest is untouched. -/
def applyRect (canvas : Canvas) (r : Rect) : Canvas :=
  fun x y => if r.covers x y then r.color.toRgb else canvas x y

/-- The effect of a sequence of `rectangle` calls, first call first. -/
def applyRects (canvas : Canvas) (rs : List Rect) : Canvas :=
  rs.foldl applyRect canvas

/-! ## Derived definitions used by the claim statements -/

/-- The geometry component of a resolved element. -/
def FlagElement.geo : FlagElement → FlagGeometry
  | .mk g _ => g

/-- The weight component of a resolved element. -/
def FlagElement.weight : FlagElement → Nat
  | .mk _ w => w

/-- The weights of a split's children, in order. -/
def weightsOf (els : List FlagElement) : List Nat := els.map FlagElement.weight

/-- "The last character of the input, if any, is not whitespace."  Inputs
with this property never trigger the parser's early `?` return, because
that return requires an open list whose remaining input is non-empty,
all-whitespace. -/
def lastNonWs (input : List Char) : Prop :=
  ∀ c, input.getLast? = some c → ¬ c.isWhitespace

/-- The character-level shape every parsed atom actually has: non-empty,
whitespace-free, never starting with `'('` (that starts a list), and with
`')'` possible only as the FIRST character (a stray `')'` where a node may
start is consumed as an atom; later `')'`s end the atom instead). -/
def goodAtomChars (s : List Char) : Prop :=
  s ≠ [] ∧ (∀ c ∈ s, ¬ c.isWhitespace) ∧
    (∀ c, s.head? = some c → c ≠ '(') ∧ (∀ c ∈ s.tail, c ≠ ')')

/-- All atoms anywhere in a parsed tree satisfy `goodAtomChars`. -/
inductive AtomsWellFormed : SExpr → Prop where
  | lit : ∀ s, goodAtomChars s → AtomsWellFormed (.lit s)
  | slist : ∀ l, (∀ x ∈ l, AtomsWellFormed x) → AtomsWellFormed (.slist l)

mutual
/-- Every tag name occurring under a `Reference` node of this geometry. -/
def refsIn : UnresolvedFlagGeometry → List (List Char)
  | .Solid _ => []
  | .Reference t => [t]
  | .Tag _ g => refsIn g
  | .Horizontal els => refsInElements els
  | .Vertical els => refsInElements els

/-- `refsIn` over a list of split children. -/
def refsInElements : List UnresolvedFlagElement → List (List Char)
  | [] => []
  | .mk g _ :: rest => refsIn g ++ refsInElements rest
end

/-- One step of the tag-reference chain of a tag table: resolving a
`Reference u` can be reached from resolving a `Reference t` when `t` is
bound in the table to a geometry that contains `Reference u`. -/
def tagRefStep (table : TagMap) (u t : List Char) : Prop :=
  ∃ g, lookupTag table t = some g ∧ u ∈ refsIn g

/-- A tag table whose tag-reference chains are acyclic: following
references can never descend forever (no infinite chain
`t₀ → t₁ → t₂ → …`, in particular no cycle). -/
def AcyclicTags (table : TagMap) : Prop :=
  WellFounded (fun u t => tagRefStep table u t)

/-- The extent along the split axis the spec assigns to each weight:
`floor(weight * total_extent / sum_of_weights)`. -/
def childExtents (ws : List Nat) (extent total : Nat) : List Nat :=
  ws.map (fun p => p * extent / total)

/-- The cumulative origins of contiguously placed children: the first child
starts at `start`, each next child at the previous origin plus the previous
extent. -/
def cumOffsets (start : Nat) : List Nat → List Nat
  | [] => []
  | e :: rest => start :: cumOffsets (start + e) rest

/-- Concatenation of per-child draw results, in child order; any failing
child fails the whole drawing. -/
def joinDraws : List (Option (List Rect)) → Option (List Rect)
  | [] => some []
  | none :: _ => none
  | some rs :: rest => (joinDraws rest).map (fun tl => rs ++ tl)

/-- Modelled from the spec wording of C3: every child of a horizontal split
is drawn at horizontal origin `left` plus the extents of the earlier
siblings (`cumOffsets`), with extent `floor(weight * width / total)`
(`childExtents`), inheriting `top` and `height` unchanged; the produced
rectangles are concatenated in child order. -/
def specLayoutH (els : List FlagElement) (left top width height total : Nat) :
    Option (List Rect) :=
  joinDraws ((els.zip (cumOffsets left (childExtents (weightsOf els) width total))).map
    (fun p => drawArea p.1.geo p.2 top (p.1.weight * width / total) height))

/-- Modelled from the spec wording of C3, vertical case: children are laid
out downward from `top`, inheriting `left` and `width`. -/
def specLayoutV (els : List FlagElement) (left top width height total : Nat) :
    Option (List Rect) :=
  joinDraws ((els.zip (cumOffsets top (childExtents (weightsOf els) height total))).map
    (fun p => drawArea p.1.geo left p.2 width (p.1.weight * height / total)))

/-- Containment of a rectangle in the region
`[left, left+width) × [top, top+height)`. -/
def Rect.within (r : Rect) (left top width height : Nat) : Prop :=
  left ≤ r.left ∧ r.left + r.width ≤ left + width ∧
    top ≤ r.top ∧ r.top + r.height ≤ top + height

/-- The shape C10 ascribes to accepted hex literals: a `'#'` followed by
exactly six valid hexadecimal digits. -/
def specHexForm (s : List Char) : Prop :=
  ∃ ds, s = '#' :: ds ∧ ds.length = 6 ∧ ∀ c ∈ ds, (hexDigitVal? c).isSome

/-- The six single-letter color mnemonics accepted by `from_str`. -/
def mnemonicStrings : List (List Char) := [['b'], ['g'], ['r'], ['w'], ['y'], ['s']]

/-! ## Parser infrastructure lemmas -/

theorem skipWs_length_le (l : List Char) : (skipWs l).length ≤ l.length := by
  induction l with
  | nil => simp [skipWs]
  | cons c rest ih =>
    simp only [skipWs]; split
    · simp only [List.length_cons]; omega
    · simp

theorem skipWs_suffix (l : List Char) : skipWs l <:+ l := by
  induction l with
  | nil => simp [skipWs]
  | cons c rest ih =>
    simp only [skipWs]; split
    · exact ih.trans (List.suffix_cons c rest)
    · exact List.suffix_rfl

theorem parseLoop_rest_suffix (st : Option SExpr) (input : List Char) :
    (parseLoop st input).rest <:+ input := by
  induction st, input using parseLoop.induct with
  | case1 st => simp [parseLoop, ParseOut.rest]
  | case2 c rest hws ih =>
    rw [parseLoop, if_pos hws]
    exact ih.trans (List.suffix_cons c rest)
  | case3 rest hws ih =>
    rw [parseLoop, if_neg hws, if_pos rfl]
    exact ih.trans (List.suffix_cons '(' rest)
  | case4 c rest hws hp ih =>
    rw [parseLoop, if_neg hws, if_neg hp]
    exact ih.trans (List.suffix_cons c rest)
  | case5 l rest =>
    rw [parseLoop, if_pos rfl]
    exact List.suffix_cons ')' rest
  | case6 l c rest hc r hr ih =>
    rw [parseLoop, if_neg hc, hr]
    rw [hr] at ih
    exact ih
  | case7 l c rest hc r hr ih =>
    rw [parseLoop, if_neg hc, hr]
    rw [hr] at ih
    exact (skipWs_suffix r).trans ih
  | case8 l c rest hc child r hr hlt ih1 ih2 =>
    rw [parseLoop, if_neg hc, hr]
    dsimp only
    rw [dif_pos hlt]
    rw [hr] at ih1
    exact ih2.trans ((skipWs_suffix r).trans ih1)
  | case9 l c rest hc child r hr hlt ih =>
    rw [parseLoop, if_neg hc, hr]
    dsimp only
    rw [dif_neg hlt]
    rw [hr] at ih
    exact (skipWs_suffix r).trans ih
  | case10 s c rest hbrk =>
    rw [parseLoop, if_pos hbrk]
    exact List.suffix_rfl
  | case11 s c rest hbrk ih =>
    rw [parseLoop, if_neg hbrk]
    exact ih.trans (List.suffix_cons c rest)

theorem parseLoop_rest_length_le (st : Option SExpr) (input : List Char) :
    (parseLoop st input).rest.length ≤ input.length :=
  (parseLoop_rest_suffix st input).length_le

theorem parseLoop_none_rest_le (c : Char) (rest : List Char) :
    (parseLoop none (c :: rest)).rest.length ≤ rest.length := by
  rw [parseLoop]
  split
  · exact parseLoop_rest_length_le _ _
  · split
    · exact parseLoop_rest_length_le _ _
    · exact parseLoop_rest_length_le _ _

/-- The `Some(List)` arm of the parse loop, restated without the
termination guard (`parseLoop_none_rest_le` shows the guard always
holds). -/
theorem parseLoop_slist_cons (l : List SExpr) (c : Char) (rest : List Char) (hc : c ≠ ')') :
    parseLoop (some (.slist l)) (c :: rest) =
      match parseLoop none (c :: rest) with
      | .abort r => .abort r
      | .done none r => .abort (skipWs r)
      | .done (some child) r => parseLoop (some (.slist (l ++ [child]))) (skipWs r) := by
  conv_lhs => rw [parseLoop]
  rw [if_neg hc]
  rcases hpl : parseLoop none (c :: rest) with ⟨s, r⟩ | r
  · rcases s with _ | child
    · rfl
    · dsimp only
      have hle : r.length ≤ rest.length := by
        have h1 := parseLoop_none_rest_le c rest
        rw [hpl] at h1
        exact h1
      have hlt : (skipWs r).length < rest.length + 1 := by
        have := skipWs_length_le r
        omega
      rw [dif_pos hlt]
  · rfl

theorem lastNonWs_suffix {r l : List Char} (h : r <:+ l) (hl : lastNonWs l) :
    lastNonWs r := by
  intro c hc
  obtain ⟨pre, rfl⟩ := h
  apply hl
  have hr : r ≠ [] := by
    intro hnil
    rw [hnil] at hc
    simp at hc
  rw [List.getLast?_append_of_ne_nil _ hr]
  exact hc

theorem parseLoop_all_ws (input : List Char) (h : ∀ c ∈ input, c.isWhitespace) :
    parseLoop none input = .done none [] := by
  induction input with
  | nil => rw [parseLoop]
  | cons c rest ih =>
    rw [parseLoop, if_pos (h c (List.mem_cons_self c rest))]
    exact ih (fun d hd => h d (List.mem_cons_of_mem c hd))

theorem parseLoop_lastNonWs (st : Option SExpr) (input : List Char)
    (hlast : lastNonWs input) (hst : st.isSome ∨ input ≠ []) :
    ∃ y r, parseLoop st input = .done (some y) r := by
  induction st, input using parseLoop.induct with
  | case1 st =>
    rcases hst with hsome | hne
    · rcases st with _ | x
      · simp at hsome
      · exact ⟨x, [], by rw [parseLoop]⟩
    · exact absurd rfl hne
  | case2 c rest hws ih =>
    have hrest : rest ≠ [] := by
      intro hnil
      subst hnil
      exact hlast c (by simp) hws
    rw [parseLoop, if_pos hws]
    exact ih (lastNonWs_suffix (List.suffix_cons c rest) hlast) (Or.inr hrest)
  | case3 rest hws ih =>
    rw [parseLoop, if_neg hws, if_pos rfl]
    exact ih (lastNonWs_suffix (List.suffix_cons '(' rest) hlast) (Or.inl rfl)
  | case4 c rest hws hp ih =>
    rw [parseLoop, if_neg hws, if_neg hp]
    exact ih (lastNonWs_suffix (List.suffix_cons c rest) hlast) (Or.inl rfl)
  | case5 l rest =>
    exact ⟨.slist l, rest, by rw [parseLoop, if_pos rfl]⟩
  | case6 l c rest hc r hr ih =>
    obtain ⟨y, r2, hy⟩ := ih hlast (Or.inr (by simp))
    rw [hy] at hr
    exact absurd hr (by simp)
  | case7 l c rest hc r hr ih =>
    obtain ⟨y, r2, hy⟩ := ih hlast (Or.inr (by simp))
    rw [hy] at hr
    simp at hr
  | case8 l c rest hc child r hr hlt ih1 ih2 =>
    rw [parseLoop_slist_cons l c rest hc, hr]
    apply ih2 _ (Or.inl rfl)
    have hsuf : skipWs r <:+ c :: rest := by
      have h1 : r <:+ c :: rest := by
        have := parseLoop_rest_suffix none (c :: rest)
        rw [hr] at this
        exact this
      exact (skipWs_suffix r).trans h1
    exact lastNonWs_suffix hsuf hlast
  | case9 l c rest hc child r hr hlt ih =>
    exfalso
    apply hlt
    have h1 := parseLoop_none_rest_le c rest
    rw [hr] at h1
    have := skipWs_length_le r
    simp only [ParseOut.rest] at h1
    omega
  | case10 s c rest hbrk =>
    exact ⟨.lit s, c :: rest, by rw [parseLoop, if_pos hbrk]⟩
  | case11 s c rest hbrk ih =>
    rw [parseLoop, if_neg hbrk]
    exact ih (lastNonWs_suffix (List.suffix_cons c rest) hlast) (Or.inl rfl)

/-- The invariant the parse loop maintains on its accumulator: a list
accumulator holds only well-formed children, a literal accumulator holds a
well-formed atom prefix. -/
def stateWF : Option SExpr → Prop
  | none => True
  | some (.slist l) => ∀ x ∈ l, AtomsWellFormed x
  | some (.lit s) => goodAtomChars s

theorem stateWF_some (x : SExpr) (h : stateWF (some x)) : AtomsWellFormed x := by
  cases x with
  | slist l => exact .slist l h
  | lit s => exact .lit s h

theorem parseLoop_atoms_wf : ∀ (st : Option SExpr) (input : List Char), stateWF st →
    ∀ x r, parseLoop st input = .done (some x) r → AtomsWellFormed x := by
  intro st input
  induction st, input using parseLoop.induct with
  | case1 st =>
    intro hst x r hx
    rw [parseLoop] at hx
    injection hx with h1 h2
    rw [h1] at hst
    exact stateWF_some x hst
  | case2 c rest hws ih =>
    intro hst x r hx
    rw [parseLoop, if_pos hws] at hx
    exact ih (by simp [stateWF]) x r hx
  | case3 rest hws ih =>
    intro hst x r hx
    rw [parseLoop, if_neg hws, if_pos rfl] at hx
    exact ih (by simp [stateWF]) x r hx
  | case4 c rest hws hp ih =>
    intro hst x r hx
    rw [parseLoop, if_neg hws, if_neg hp] at hx
    refine ih ?_ x r hx
    refine ⟨by simp, ?_, ?_, by simp⟩
    · intro d hd
      simp only [List.mem_singleton] at hd
      subst hd
      simpa using hws
    · intro d hd
      simp only [List.head?_cons, Option.some.injEq] at hd
      subst hd
      exact hp
  | case5 l rest =>
    intro hst x r hx
    rw [parseLoop, if_pos rfl] at hx
    injection hx with h1 h2
    injection h1 with h1
    rw [← h1]
    exact .slist l hst
  | case6 l c rest hc r hr ih =>
    intro hst x r2 hx
    rw [parseLoop_slist_cons l c rest hc, hr] at hx
    simp at hx
  | case7 l c rest hc r hr ih =>
    intro hst x r2 hx
    rw [parseLoop_slist_cons l c rest hc, hr] at hx
    simp at hx
  | case8 l c rest hc child r hr hlt ih1 ih2 =>
    intro hst x r2 hx
    rw [parseLoop_slist_cons l c rest hc, hr] at hx
    dsimp only at hx
    have hchild : AtomsWellFormed child := ih1 (by simp [stateWF]) child r hr
    refine ih2 ?_ x r2 hx
    intro y hy
    rcases List.mem_append.mp hy with hy | hy
    · exact hst y hy
    · simp only [List.mem_singleton] at hy
      subst hy
      exact hchild
  | case9 l c rest hc child r hr hlt ih =>
    intro hst x r2 hx
    exfalso
    apply hlt
    have h1 := parseLoop_none_rest_le c rest
    rw [hr] at h1
    simp only [ParseOut.rest] at h1
    have := skipWs_length_le r
    omega
  | case10 s c rest hbrk =>
    intro hst x r hx
    rw [parseLoop, if_pos hbrk] at hx
    injection hx with h1 h2
    injection h1 with h1
    rw [← h1]
    exact .lit s hst
  | case11 s c rest hbrk ih =>
    intro hst x r hx
    rw [parseLoop, if_neg hbrk] at hx
    push_neg at hbrk
    obtain ⟨hcws, hcp⟩ := hbrk
    obtain ⟨hne, hnws, hhead, htail⟩ := hst
    refine ih ⟨by simp, ?_, ?_, ?_⟩ x r hx
    · intro d hd
      rcases List.mem_append.mp hd with hd | hd
      · exact hnws d hd
      · simp only [List.mem_singleton] at hd
        subst hd
        simpa using hcws
    · intro d hd
      rw [List.head?_append_of_ne_nil s hne] at hd
      exact hhead d hd
    · intro d hd
      rw [List.tail_append_singleton_of_ne_nil hne] at hd
      rcases List.mem_append.mp hd with hd | hd
      · exact htail d hd
      · simp only [List.mem_singleton] at hd
        subst hd
        exact hcp

theorem parseTop_atoms_wf (input : List Char) (x : SExpr)
    (h : (parseTop input).1 = some x) : AtomsWellFormed x := by
  unfold parseTop at h
  rcases hpl : parseLoop none input with ⟨s, r⟩ | r
  · rw [hpl] at h
    simp only at h
    subst h
    exact parseLoop_atoms_wf none input (by simp [stateWF]) x r hpl
  · rw [hpl] at h
    simp at h

/-! ## Color lemmas (claim C10) -/

theorem char_toNat_le_of_le {a b : Char} (h : a ≤ b) : a.toNat ≤ b.toNat := by
  have h2 := Char.le_def.mp h
  simp only [UInt32.le_def, BitVec.le_def] at h2
  simpa [Char.toNat, UInt32.toNat] using h2

theorem hexDigitVal_lt_16 (c : Char) (v : Nat) (h : hexDigitVal? c = some v) : v < 16 := by
  unfold hexDigitVal? at h
  split_ifs at h with h1 h2 h3 <;> injection h with h
  · have ha := char_toNat_le_of_le h1.1
    have hb := char_toNat_le_of_le h1.2
    have e1 : Char.toNat '0' = 48 := rfl
    have e2 : Char.toNat '9' = 57 := rfl
    omega
  · have ha := char_toNat_le_of_le h2.1
    have hb := char_toNat_le_of_le h2.2
    have e1 : Char.toNat 'a' = 97 := rfl
    have e2 : Char.toNat 'f' = 102 := rfl
    omega
  · have ha := char_toNat_le_of_le h3.1
    have hb := char_toNat_le_of_le h3.2
    have e1 : Char.toNat 'A' = 65 := rfl
    have e2 : Char.toNat 'F' = 70 := rfl
    omega

theorem hexDigit_le_f (c : Char) (v : Nat) (h : hexDigitVal? c = some v) : c ≤ 'f' := by
  unfold hexDigitVal? at h
  split_ifs at h with h1 h2 h3
  · exact Char.le_trans h1.2 (by decide)
  · exact h2.2
  · exact Char.le_trans h3.2 (by decide)

theorem hexDigit_utf8Size (c : Char) (v : Nat) (h : hexDigitVal? c = some v) :
    c.utf8Size = 1 := by
  have hle : c ≤ 'f' := hexDigit_le_f c v h
  unfold Char.utf8Size
  rw [if_pos]
  show c.val ≤ _
  exact UInt32.le_trans (Char.le_def.mp hle) (by decide)

theorem nibble_combine (a b : Nat) (ha : a < 16) (hb : b < 16) :
    (a <<< 4) ||| b = 16 * a + b := by
  revert b
  revert a
  exact (by decide : ∀ a < 16, ∀ b < 16, (a <<< 4) ||| b = 16 * a + b)

theorem length_le_utf8Length (s : List Char) : s.length ≤ utf8Length s := by
  induction s with
  | nil => simp [utf8Length]
  | cons c rest ih =>
    have := Char.utf8Size_pos c
    simp only [utf8Length, List.map_cons, List.sum_cons, List.length_cons] at *
    omega

theorem utf8Length_eq_length (s : List Char) (h : ∀ c ∈ s, c.utf8Size = 1) :
    utf8Length s = s.length := by
  induction s with
  | nil => simp [utf8Length]
  | cons c rest ih =>
    simp only [utf8Length, List.map_cons, List.sum_cons, List.length_cons] at *
    rw [h c (List.mem_cons_self c rest), ih (fun d hd => h d (List.mem_cons_of_mem c hd))]
    omega

theorem filterMap_full_length {α β : Type} (f : α → Option β) (l : List α)
    (h : (l.filterMap f).length = l.length) : ∀ a ∈ l, (f a).isSome := by
  induction l with
  | nil => simp
  | cons a rest ih =>
    intro b hb
    rcases hfa : f a with _ | v
    · exfalso
      rw [List.filterMap_cons_none hfa] at h
      have := List.length_filterMap_le f rest
      simp only [List.length_cons] at h
      omega
    · rw [List.filterMap_cons_some hfa] at h
      simp only [List.length_cons] at h
      rcases List.mem_cons.mp hb with hb | hb
      · subst hb
        simp [hfa]
      · exact ih (by omega) b hb

theorem list_length_six {α : Type} (l : List α) (h : l.length = 6) :
    ∃ a0 a1 a2 a3 a4 a5, l = [a0, a1, a2, a3, a4, a5] := by
  rcases l with _ | ⟨a0, _ | ⟨a1, _ | ⟨a2, _ | ⟨a3, _ | ⟨a4, _ | ⟨a5, _ | ⟨a6, tl⟩⟩⟩⟩⟩⟩⟩ <;>
    simp_all

theorem toHexColor_isSome_iff (s : List Char) :
    (toHexColor s).isSome ↔ specHexForm s := by
  constructor
  · intro h
    unfold toHexColor at h
    split_ifs at h with h7 hh
    · simp at h
    · simp at h
    · rw [not_not] at h7
      rw [not_not] at hh
      obtain ⟨ds, rfl⟩ : ∃ ds, s = '#' :: ds := by
        rcases s with _ | ⟨c, ds⟩
        · simp at hh
        · simp only [List.head?_cons, Option.some.injEq] at hh
          exact ⟨ds, by rw [hh]⟩
      simp only [List.drop_one, List.tail_cons] at h
      have hlen6 : (ds.filterMap hexDigitVal?).length = 6 := by
        rcases hfm : ds.filterMap hexDigitVal? with
          _ | ⟨v0, _ | ⟨v1, _ | ⟨v2, _ | ⟨v3, _ | ⟨v4, _ | ⟨v5, _ | ⟨v6, vtl⟩⟩⟩⟩⟩⟩⟩ <;>
          rw [hfm] at h <;> simp_all
      have hbytes : utf8Length ds = 6 := by
        have hsharp : Char.utf8Size '#' = 1 := by decide
        simp only [utf8Length, List.map_cons, List.sum_cons, hsharp] at h7
        simp only [utf8Length]
        omega
      have hle : (ds.filterMap hexDigitVal?).length ≤ ds.length :=
        List.length_filterMap_le _ _
      have hdle : ds.length ≤ utf8Length ds := length_le_utf8Length ds
      have hdeq : ds.length = 6 := by omega
      exact ⟨ds, rfl, hdeq, filterMap_full_length hexDigitVal? ds (by omega)⟩
  · rintro ⟨ds, rfl, hlen, hall⟩
    unfold toHexColor
    have hsz : ∀ c ∈ ds, c.utf8Size = 1 := by
      intro c hc
      obtain ⟨v, hv⟩ := Option.isSome_iff_exists.mp (hall c hc)
      exact hexDigit_utf8Size c v hv
    have h7 : utf8Length ('#' :: ds) = 7 := by
      have hsharp : Char.utf8Size '#' = 1 := by decide
      simp only [utf8Length, List.map_cons, List.sum_cons, hsharp]
      have := utf8Length_eq_length ds hsz
      simp only [utf8Length] at this
      omega
    rw [if_neg (by omega), if_neg (by simp)]
    obtain ⟨c0, c1, c2, c3, c4, c5, rfl⟩ := list_length_six ds hlen
    obtain ⟨v0, hv0⟩ := Option.isSome_iff_exists.mp (hall c0 (by simp))
    obtain ⟨v1, hv1⟩ := Option.isSome_iff_exists.mp (hall c1 (by simp))
    obtain ⟨v2, hv2⟩ := Option.isSome_iff_exists.mp (hall c2 (by simp))
    obtain ⟨v3, hv3⟩ := Option.isSome_iff_exists.mp (hall c3 (by simp))
    obtain ⟨v4, hv4⟩ := Option.isSome_iff_exists.mp (hall c4 (by simp))
    obtain ⟨v5, hv5⟩ := Option.isSome_iff_exists.mp (hall c5 (by simp))
    simp [List.filterMap_cons, hv0, hv1, hv2, hv3, hv4, hv5]

/-! ## Claim C10 -/

/-- C10: color parsing succeeds exactly for the six single-letter
mnemonics and for hex literals consisting of `'#'` followed by exactly six
valid hexadecimal digits (7 characters in all, which for accepted inputs
coincides with the 7-byte length the code tests); the six digit values
combine pairwise, most significant nibble first, into the red, green and
blue channel bytes; `"#12345"` (5 digits) and `"#zzzzzz"` (non-hex digits)
both fail to parse. -/
theorem color_parse_characterization :
    (∀ s : List Char, (colorFromStr s).isSome ↔ (s ∈ mnemonicStrings ∨ specHexForm s)) ∧
    (∀ (c0 c1 c2 c3 c4 c5 : Char) (v0 v1 v2 v3 v4 v5 : Nat),
      hexDigitVal? c0 = some v0 → hexDigitVal? c1 = some v1 →
      hexDigitVal? c2 = some v2 → hexDigitVal? c3 = some v3 →
      hexDigitVal? c4 = some v4 → hexDigitVal? c5 = some v5 →
      colorFromStr ['#', c0, c1, c2, c3, c4, c5] =
        some (.Rgb (16 * v0 + v1) (16 * v2 + v3) (16 * v4 + v5))) ∧
    colorFromStr "#12345".toList = none ∧
    colorFromStr "#zzzzzz".toList = none := by
  refine ⟨?_, ?_, by decide, by decide⟩
  · intro s
    unfold colorFromStr
    split_ifs with h1 h2 h3 h4 h5 h6
    · subst h1; simp [mnemonicStrings]
    · subst h2; simp [mnemonicStrings]
    · subst h3; simp [mnemonicStrings]
    · subst h4; simp [mnemonicStrings]
    · subst h5; simp [mnemonicStrings]
    · subst h6; simp [mnemonicStrings]
    · have hiff := toHexColor_isSome_iff s
      rcases hth : toHexColor s with _ | ⟨⟨r, g, b⟩⟩
      · rw [hth] at hiff
        simp only [Option.isSome_none, Bool.false_eq_true, false_iff] at hiff
        simp [mnemonicStrings, h1, h2, h3, h4, h5, h6, hiff]
      · rw [hth] at hiff
        simp only [Option.isSome_some, true_iff] at hiff
        simp [hiff]
  · intro c0 c1 c2 c3 c4 c5 v0 v1 v2 v3 v4 v5 hv0 hv1 hv2 hv3 hv4 hv5
    have hb0 := hexDigitVal_lt_16 _ _ hv0
    have hb1 := hexDigitVal_lt_16 _ _ hv1
    have hb2 := hexDigitVal_lt_16 _ _ hv2
    have hb3 := hexDigitVal_lt_16 _ _ hv3
    have hb4 := hexDigitVal_lt_16 _ _ hv4
    have hb5 := hexDigitVal_lt_16 _ _ hv5
    have h7 : utf8Length ['#', c0, c1, c2, c3, c4, c5] = 7 := by
      simp only [utf8Length, List.map_cons, List.map_nil, List.sum_cons, List.sum_nil,
        hexDigit_utf8Size c0 v0 hv0, hexDigit_utf8Size c1 v1 hv1,
        hexDigit_utf8Size c2 v2 hv2, hexDigit_utf8Size c3 v3 hv3,
        hexDigit_utf8Size c4 v4 hv4, hexDigit_utf8Size c5 v5 hv5,
        (show Char.utf8Size '#' = 1 by decide)]
      omega
    unfold colorFromStr
    rw [if_neg (by simp), if_neg (by simp), if_neg (by simp), if_neg (by simp),
      if_neg (by simp), if_neg (by simp)]
    unfold toHexColor
    rw [if_neg (by omega), if_neg (by simp)]
    simp only [List.drop_one, List.tail_cons, List.filterMap_cons_some hv0,
      List.filterMap_cons_some hv1, List.filterMap_cons_some hv2,
      List.filterMap_cons_some hv3, List.filterMap_cons_some hv4,
      List.filterMap_cons_some hv5, List.filterMap_nil]
    rw [nibble_combine v0 v1 hb0 hb1, nibble_combine v2 v3 hb2 hb3,
      nibble_combine v4 v5 hb4 hb5]

/-- Witness for `color_parse_characterization`. -/
theorem color_parse_characterization_witness :
    colorFromStr ['#', '1', '2', '3', '4', '5', '6'] =
      some (.Rgb (16 * 1 + 2) (16 * 3 + 4) (16 * 5 + 6)) :=
  color_parse_characterization.2.1 '1' '2' '3' '4' '5' '6' 1 2 3 4 5 6
    (by decide) (by decide) (by decide) (by decide) (by decide) (by decide)

/-! ## Resolution lemmas -/

theorem mapM_option_mono {α β : Type} (f g : α → Option β) (l : List α)
    (h : ∀ a ∈ l, ∀ b, f a = some b → g a = some b) :
    ∀ r, l.mapM f = some r → l.mapM g = some r := by
  induction l with
  | nil => intro r hr; simpa using hr
  | cons a rest ih =>
    intro r hr
    rw [List.mapM_cons] at hr ⊢
    rcases hfa : f a with _ | b <;> rw [hfa] at hr
    · simp at hr
    · rcases hrest : rest.mapM f with _ | bs <;> rw [hrest] at hr
      · simp at hr
      · rw [h a (List.mem_cons_self a rest) b hfa,
          ih (fun x hx => h x (List.mem_cons_of_mem a hx)) bs hrest]
        exact hr

/-- More fuel never changes a result that was already reached: `resolveF`
is monotone in its fuel, so `some r` at any fuel is THE behaviour of the
unbounded Rust recursion. -/
theorem resolveF_mono : ∀ (f f' : Nat), f ≤ f' →
    ∀ g table r, resolveF f g table = some r → resolveF f' g table = some r := by
  intro f
  induction f with
  | zero =>
    intro f' _ g table r h
    simp [resolveF] at h
  | succ fa ih =>
    intro f' hle g table r h
    obtain ⟨fb, rfl⟩ : ∃ fb, f' = fb + 1 := ⟨f' - 1, by omega⟩
    have hab : fa ≤ fb := by omega
    cases g with
    | Solid color => simpa [resolveF] using h
    | Tag t geo =>
      rw [resolveF] at h ⊢
      exact ih fb hab geo table r h
    | Reference t =>
      rw [resolveF] at h ⊢
      cases hl : lookupTag table t with
      | none => rw [hl] at h; exact h
      | some geo => rw [hl] at h; exact ih fb hab geo table r h
    | Horizontal els =>
      rw [resolveF] at h ⊢
      rcases hm : els.mapM (fun el =>
          match el with
          | .mk geo weight =>
            (resolveF fa geo table).map (Option.map (fun fg => FlagElement.mk fg weight))) with
        _ | opts <;> rw [hm] at h
      · simp at h
      · rw [mapM_option_mono _ _ els ?_ opts hm]
        · exact h
        · rintro ⟨geo, weight⟩ hmem b hb
          simp only at hb ⊢
          rcases hr : resolveF fa geo table with _ | og <;> rw [hr] at hb
          · simp at hb
          · rw [ih fb hab geo table og hr]
            exact hb
    | Vertical els =>
      rw [resolveF] at h ⊢
      rcases hm : els.mapM (fun el =>
          match el with
          | .mk geo weight =>
            (resolveF fa geo table).map (Option.map (fun fg => FlagElement.mk fg weight))) with
        _ | opts <;> rw [hm] at h
      · simp at h
      · rw [mapM_option_mono _ _ els ?_ opts hm]
        · exact h
        · rintro ⟨geo, weight⟩ hmem b hb
          simp only at hb ⊢
          rcases hr : resolveF fa geo table with _ | og <;> rw [hr] at hb
          · simp at hb
          · rw [ih fb hab geo table og hr]
            exact hb

/-! ## Claim C1 -/

/-- C1 (code bug): a split whose children's weights sum to zero is NOT
rejected with a defined error.  With at least one child the loop reaches
`(pivot * width) / total` with `total = 0` — a `u32` division by zero,
i.e. a Rust panic, modelled `none` — for horizontal and vertical splits
alike.  (The spec itself notes the design does not guard this.) -/
theorem zero_total_weight_split_panics :
    drawArea (.Horizontal [.mk (.Solid .Blue) 0, .mk (.Solid .Green) 0]) 0 0 400 300 = none ∧
    drawArea (.Vertical [.mk (.Solid .Red) 0]) 0 0 400 300 = none :=
  ⟨rfl, rfl⟩

/-! ## Claim C2 -/

/-- C2: `(h 1 (r missing) 1 (s g))` parses and builds into a horizontal
split with a `Reference "missing"` child and a `Solid Green` child; the
collected tag table is empty, so the reference child resolves to `None`
and is dropped by the split's `filter_map` while the split itself
succeeds; at every sufficient recursion depth the result is the
single-child split `Horizontal [(Solid Green, 1)]`, and drawing it over a
400×300 canvas paints one green rectangle over the WHOLE canvas: the
surviving weight is divided by the reduced total, `1 * 400 / 1 = 400`. -/
theorem undefined_reference_child_dropped :
    (parseTop "(h 1 (r missing) 1 (s g))".toList).1 =
      some (.slist [.lit ['h'], .lit ['1'],
        .slist [.lit ['r'], .lit ['m', 'i', 's', 's', 'i', 'n', 'g']],
        .lit ['1'], .slist [.lit ['s'], .lit ['g']]]) ∧
    toFlagGeometry (.slist [.lit ['h'], .lit ['1'],
        .slist [.lit ['r'], .lit ['m', 'i', 's', 's', 'i', 'n', 'g']],
        .lit ['1'], .slist [.lit ['s'], .lit ['g']]]) =
      some (.Horizontal [.mk (.Reference ['m', 'i', 's', 's', 'i', 'n', 'g']) 1,
        .mk (.Solid .Green) 1]) ∧
    UnresolvedFlagGeometry.tags
      (.Horizontal [.mk (.Reference ['m', 'i', 's', 's', 'i', 'n', 'g']) 1,
        .mk (.Solid .Green) 1]) = [] ∧
    (∀ fuel : Nat, resolveF (2 + fuel)
      (.Horizontal [.mk (.Reference ['m', 'i', 's', 's', 'i', 'n', 'g']) 1,
        .mk (.Solid .Green) 1]) [] =
      some (some (.Horizontal [.mk (.Solid .Green) 1]))) ∧
    drawArea (.Horizontal [.mk (.Solid .Green) 1]) 0 0 400 300 =
      some [⟨0, 0, 400, 300, .Green⟩] := by
  refine ⟨?_, ?_, rfl, ?_, rfl⟩
  · simp [parseTop, parseLoop, skipWs]
  · simp [toFlagGeometry, buildSplit, buildElements, stepBy2, SExpr.asLiteral, parseU32?,
      decimalValue, colorFromStr]
  · intro fuel
    exact resolveF_mono 2 (2 + fuel) (by omega) _ _ _ rfl

/-- Witness instantiating the fuel quantifier of
`undefined_reference_child_dropped`. -/
theorem undefined_reference_child_dropped_witness :
    resolveF (2 + 0)
      (.Horizontal [.mk (.Reference ['m', 'i', 's', 's', 'i', 'n', 'g']) 1,
        .mk (.Solid .Green) 1]) [] =
      some (some (.Horizontal [.mk (.Solid .Green) 1])) :=
  undefined_reference_child_dropped.2.2.2.1 0

/-! ## Claim C5 -/

/-- C5: tag bindings are collected over the whole tree into one flat table
before resolution, so a reference may precede or follow its tag textually:
both `(h 1 (t x (s b)) 1 (r x))` and `(h 1 (r x) 1 (t x (s b)))` resolve
to a horizontal split of two weight-1 children that are both Solid(Blue). -/
theorem flat_tag_namespace_resolution :
    (parseTop "(h 1 (t x (s b)) 1 (r x))".toList).1 =
      some (.slist [.lit ['h'], .lit ['1'],
        .slist [.lit ['t'], .lit ['x'], .slist [.lit ['s'], .lit ['b']]],
        .lit ['1'], .slist [.lit ['r'], .lit ['x']]]) ∧
    toFlagGeometry (.slist [.lit ['h'], .lit ['1'],
        .slist [.lit ['t'], .lit ['x'], .slist [.lit ['s'], .lit ['b']]],
        .lit ['1'], .slist [.lit ['r'], .lit ['x']]]) =
      some (.Horizontal [.mk (.Tag ['x'] (.Solid .Blue)) 1, .mk (.Reference ['x']) 1]) ∧
    UnresolvedFlagGeometry.tags
      (.Horizontal [.mk (.Tag ['x'] (.Solid .Blue)) 1, .mk (.Reference ['x']) 1]) =
      [(['x'], .Solid .Blue)] ∧
    (∀ fuel : Nat, resolveF (3 + fuel)
      (.Horizontal [.mk (.Tag ['x'] (.Solid .Blue)) 1, .mk (.Reference ['x']) 1])
      [(['x'], .Solid .Blue)] =
      some (some (.Horizontal [.mk (.Solid .Blue) 1, .mk (.Solid .Blue) 1]))) ∧
    toFlagGeometry (.slist [.lit ['h'], .lit ['1'],
        .slist [.lit ['r'], .lit ['x']],
        .lit ['1'], .slist [.lit ['t'], .lit ['x'], .slist [.lit ['s'], .lit ['b']]]]) =
      some (.Horizontal [.mk (.Reference ['x']) 1, .mk (.Tag ['x'] (.Solid .Blue)) 1]) ∧
    UnresolvedFlagGeometry.tags
      (.Horizontal [.mk (.Reference ['x']) 1, .mk (.Tag ['x'] (.Solid .Blue)) 1]) =
      [(['x'], .Solid .Blue)] ∧
    (∀ fuel : Nat, resolveF (3 + fuel)
      (.Horizontal [.mk (.Reference ['x']) 1, .mk (.Tag ['x'] (.Solid .Blue)) 1])
      [(['x'], .Solid .Blue)] =
      some (some (.Horizontal [.mk (.Solid .Blue) 1, .mk (.Solid .Blue) 1]))) := by
  refine ⟨?_, ?_, rfl, ?_, ?_, rfl, ?_⟩
  · simp [parseTop, parseLoop, skipWs]
  · simp [toFlagGeometry, buildSplit, buildElements, stepBy2, SExpr.asLiteral, parseU32?,
      decimalValue, colorFromStr]
  · intro fuel
    exact resolveF_mono 3 (3 + fuel) (by omega) _ _ _ rfl
  · simp [toFlagGeometry, buildSplit, buildElements, stepBy2, SExpr.asLiteral, parseU32?,
      decimalValue, colorFromStr]
  · intro fuel
    exact resolveF_mono 3 (3 + fuel) (by omega) _ _ _ rfl

/-- Witness instantiating the fuel quantifiers of
`flat_tag_namespace_resolution`. -/
theorem flat_tag_namespace_resolution_witness :
    resolveF (3 + 0)
      (.Horizontal [.mk (.Tag ['x'] (.Solid .Blue)) 1, .mk (.Reference ['x']) 1])
      [(['x'], .Solid .Blue)] =
      some (some (.Horizontal [.mk (.Solid .Blue) 1, .mk (.Solid .Blue) 1])) :=
  flat_tag_namespace_resolution.2.2.2.1 0

/-! ## Claim C6 -/

/-- C6 counterexample: in `(h 1 x 1 (s b))` the first pair's geometry `x`
(a bare atom) fails to build, and the WHOLE split expression fails —
`geo.to_flag_geometry()?` aborts the loop — instead of the pair being
silently skipped. -/
theorem failing_split_child_skipped_counterexample :
    (parseTop "(h 1 x 1 (s b))".toList).1 =
      some (.slist [.lit ['h'], .lit ['1'], .lit ['x'], .lit ['1'],
        .slist [.lit ['s'], .lit ['b']]]) ∧
    toFlagGeometry (.slist [.lit ['h'], .lit ['1'], .lit ['x'], .lit ['1'],
        .slist [.lit ['s'], .lit ['b']]]) = none := by
  constructor
  · simp [parseTop, parseLoop, skipWs]
  · simp [toFlagGeometry, buildSplit, buildElements, stepBy2, SExpr.asLiteral, parseU32?,
      decimalValue, colorFromStr]

/-- C6 (amended): the two failure modes are NOT a per-pair skip.  A weight
that fails to parse is dropped from the weight sequence BEFORE pairing, so
later weights shift onto earlier geometries and trailing geometries lose
their partner — `(h x (s b) 2 (s r))` builds a split with the single child
`(Solid Blue, 2)`: fewer children than pairs supplied, but the surviving
pair is a re-pairing, not a skip.  A geometry that fails to build, by
contrast, makes the whole split expression fail: whenever any zipped pair's
geometry builds to `None`, the element loop returns `None`. -/
theorem split_child_failure_modes :
    toFlagGeometry (.slist [.lit ['h'], .lit ['x'], .slist [.lit ['s'], .lit ['b']],
        .lit ['2'], .slist [.lit ['s'], .lit ['r']]]) =
      some (.Horizontal [.mk (.Solid .Blue) 2]) ∧
    (∀ ps : List (Nat × SExpr), (∃ p ∈ ps, toFlagGeometry p.2 = none) →
      buildElements ps = none) := by
  constructor
  · simp [toFlagGeometry, buildSplit, buildElements, stepBy2, SExpr.asLiteral, parseU32?,
      decimalValue, colorFromStr]
  · intro ps
    induction ps with
    | nil => rintro ⟨p, hp, hnone⟩; simp at hp
    | cons q rest ih =>
      rintro ⟨p, hp, hnone⟩
      obtain ⟨w, g⟩ := q
      rw [buildElements]
      rcases List.mem_cons.mp hp with hp | hp
      · subst hp
        rw [hnone]
      · rcases hg : toFlagGeometry g with _ | geo
        · rfl
        · rw [ih ⟨p, hp, hnone⟩]

/-- Witness for `split_child_failure_modes`. -/
theorem split_child_failure_modes_witness :
    buildElements [(1, SExpr.lit ['x'])] = none :=
  split_child_failure_modes.2 [(1, SExpr.lit ['x'])]
    ⟨(1, SExpr.lit ['x']), by simp, by simp [toFlagGeometry]⟩

/-! ## Layout lemmas (claims C3, C4) -/

theorem drawElemsH_eq_spec (els : List FlagElement) (total l t w h : Nat)
    (htot : total ≠ 0) :
    drawElemsH els total l t w h = specLayoutH els l t w h total := by
  induction els generalizing l with
  | nil => simp [drawElemsH, specLayoutH, weightsOf, childExtents, cumOffsets, joinDraws]
  | cons el rest ih =>
    obtain ⟨g, p⟩ := el
    rw [drawElemsH, if_neg htot]
    simp only [specLayoutH, weightsOf, childExtents, List.map_map, List.map_cons,
      Function.comp_apply, cumOffsets, List.zip_cons_cons]
    show _ = joinDraws (drawArea g l t (p * w / total) h ::
      (rest.zip (cumOffsets (l + p * w / total)
        (rest.map ((fun q => q * w / total) ∘ FlagElement.weight)))).map
        (fun q => drawArea q.1.geo q.2 t (q.1.weight * w / total) h))
    rcases hda : drawArea g l t (p * w / total) h with _ | rs
    · simp [joinDraws]
    · rw [joinDraws]
      have ihx := ih (l + p * w / total)
      simp only [specLayoutH, weightsOf, childExtents, List.map_map] at ihx
      rw [ihx]
      rcases hjd : joinDraws ((rest.zip (cumOffsets (l + p * w / total)
          (rest.map ((fun q => q * w / total) ∘ FlagElement.weight)))).map
          (fun q => drawArea q.1.geo q.2 t (q.1.weight * w / total) h)) with _ | rss
      · rw [hjd]
        simp
      · rw [hjd]
        simp

theorem drawElemsV_eq_spec (els : List FlagElement) (total l t w h : Nat)
    (htot : total ≠ 0) :
    drawElemsV els total l t w h = specLayoutV els l t w h total := by
  induction els generalizing t with
  | nil => simp [drawElemsV, specLayoutV, weightsOf, childExtents, cumOffsets, joinDraws]
  | cons el rest ih =>
    obtain ⟨g, p⟩ := el
    rw [drawElemsV, if_neg htot]
    simp only [specLayoutV, weightsOf, childExtents, List.map_map, List.map_cons,
      Function.comp_apply, cumOffsets, List.zip_cons_cons]
    show _ = joinDraws (drawArea g l t w (p * h / total) ::
      (rest.zip (cumOffsets (t + p * h / total)
        (rest.map ((fun q => q * h / total) ∘ FlagElement.weight)))).map
        (fun q => drawArea q.1.geo l q.2 w (q.1.weight * h / total)))
    rcases hda : drawArea g l t w (p * h / total) with _ | rs
    · simp [joinDraws]
    · rw [joinDraws]
      have ihx := ih (t + p * h / total)
      simp only [specLayoutV, weightsOf, childExtents, List.map_map] at ihx
      rw [ihx]
      rcases hjd : joinDraws ((rest.zip (cumOffsets (t + p * h / total)
          (rest.map ((fun q => q * h / total) ∘ FlagElement.weight)))).map
          (fun q => drawArea q.1.geo l q.2 w (q.1.weight * h / total))) with _ | rss
      · rw [hjd]
        simp
      · rw [hjd]
        simp

/-! ## Claim C3 -/

/-- C3: for a split with positive total weight, each child is drawn with
extent `floor(weight * total_extent / sum_of_weights)` along the split
axis, children are placed contiguously in order starting at the
rectangle's origin (each origin offset by the extents of the earlier
siblings), and the perpendicular extent is inherited unchanged — the
horizontal and vertical draw loops coincide with this layout; with
weights `[1, 2, 1]` over width 400 the extents are exactly
`[100, 200, 100]`. -/
theorem weighted_split_layout :
    (∀ (els : List FlagElement) (l t w h : Nat), sumWeights els ≠ 0 →
      drawArea (.Horizontal els) l t w h = specLayoutH els l t w h (sumWeights els)) ∧
    (∀ (els : List FlagElement) (l t w h : Nat), sumWeights els ≠ 0 →
      drawArea (.Vertical els) l t w h = specLayoutV els l t w h (sumWeights els)) ∧
    childExtents [1, 2, 1] 400 4 = [100, 200, 100] ∧
    drawArea (.Horizontal [.mk (.Solid .Blue) 1, .mk (.Solid .White) 2, .mk (.Solid .Red) 1])
      0 0 400 300 =
      some [⟨0, 0, 100, 300, .Blue⟩, ⟨100, 0, 200, 300, .White⟩, ⟨300, 0, 100, 300, .Red⟩] := by
  refine ⟨?_, ?_, rfl, rfl⟩
  · intro els l t w h htot
    rw [drawArea]
    exact drawElemsH_eq_spec els (sumWeights els) l t w h htot
  · intro els l t w h htot
    rw [drawArea]
    exact drawElemsV_eq_spec els (sumWeights els) l t w h htot

/-- Witness for `weighted_split_layout`. -/
theorem weighted_split_layout_witness :
    drawArea (.Horizontal [.mk (.Solid .Blue) 1, .mk (.Solid .White) 2, .mk (.Solid .Red) 1])
      0 0 400 300 =
    specLayoutH [.mk (.Solid .Blue) 1, .mk (.Solid .White) 2, .mk (.Solid .Red) 1]
      0 0 400 300
      (sumWeights [.mk (.Solid .Blue) 1, .mk (.Solid .White) 2, .mk (.Solid .Red) 1]) :=
  weighted_split_layout.1 [.mk (.Solid .Blue) 1, .mk (.Solid .White) 2, .mk (.Solid .Red) 1]
    0 0 400 300 (by decide)

theorem nat_div_add_div_le (a b c : Nat) : a / c + b / c ≤ (a + b) / c := by
  rcases Nat.eq_zero_or_pos c with hc | hc
  · subst hc; simp
  · rw [Nat.le_div_iff_mul_le hc]
    calc (a / c + b / c) * c = a / c * c + b / c * c := by ring
      _ ≤ a + b := Nat.add_le_add (Nat.div_mul_le_self a c) (Nat.div_mul_le_self b c)

mutual
/-- Size measure of a resolved geometry (for induction only). -/
def fgSize : FlagGeometry → Nat
  | .Solid _ => 1
  | .Horizontal els => felsSize els + 1
  | .Vertical els => felsSize els + 1

/-- Size measure of a resolved element list (for induction only). -/
def felsSize : List FlagElement → Nat
  | [] => 0
  | .mk g _ :: rest => fgSize g + felsSize rest + 1
end

theorem fgSize_pos (g : FlagGeometry) : 1 ≤ fgSize g := by
  cases g <;> simp [fgSize]

/-- Every rectangle emitted by the drawing functions lies inside the
assigned region: stated over a size bound `n` to drive the induction
through the mutual recursion of `drawArea`/`drawElemsH`/`drawElemsV`.
For the child loops the region is the strip starting at the running
offset whose extent along the split axis is the remaining children's
total extent. -/
theorem draw_within_bounded : ∀ n : Nat,
    (∀ (g : FlagGeometry) (l t w h : Nat) (rects : List Rect), fgSize g ≤ n →
      drawArea g l t w h = some rects → ∀ r ∈ rects, r.within l t w h) ∧
    (∀ (els : List FlagElement) (total off t w h : Nat) (rects : List Rect),
      felsSize els ≤ n → drawElemsH els total off t w h = some rects →
      ∀ r ∈ rects, r.within off t (sumWeights els * w / total) h) ∧
    (∀ (els : List FlagElement) (total l off w h : Nat) (rects : List Rect),
      felsSize els ≤ n → drawElemsV els total l off w h = some rects →
      ∀ r ∈ rects, r.within l off w (sumWeights els * h / total)) := by
  intro n
  induction n with
  | zero =>
    refine ⟨?_, ?_, ?_⟩
    · intro g l t w h rects hn
      exact absurd hn (by have := fgSize_pos g; omega)
    · intro els total off t w h rects hn hd
      cases els with
      | nil =>
        have hnil : drawElemsH ([] : List FlagElement) total off t w h = some [] := rfl
        rw [hnil] at hd
        injection hd with hd
        intro r hr
        rw [← hd] at hr
        simp at hr
      | cons el rest =>
        obtain ⟨g, p⟩ := el
        exact absurd hn (by simp only [felsSize]; have := fgSize_pos g; omega)
    · intro els total l off w h rects hn hd
      cases els with
      | nil =>
        have hnil : drawElemsV ([] : List FlagElement) total l off w h = some [] := rfl
        rw [hnil] at hd
        injection hd with hd
        intro r hr
        rw [← hd] at hr
        simp at hr
      | cons el rest =>
        obtain ⟨g, p⟩ := el
        exact absurd hn (by simp only [felsSize]; have := fgSize_pos g; omega)
  | succ n ih =>
    obtain ⟨ihA, ihH, ihV⟩ := ih
    refine ⟨?_, ?_, ?_⟩
    · intro g l t w h rects hn hd
      cases g with
      | Solid color =>
        rw [drawArea] at hd
        injection hd with hd
        intro r hr
        rw [← hd] at hr
        simp only [List.mem_singleton] at hr
        subst hr
        exact ⟨Nat.le_refl _, Nat.le_refl _, Nat.le_refl _, Nat.le_refl _⟩
      | Horizontal els =>
        rw [drawArea] at hd
        cases els with
        | nil =>
          have hnil : drawElemsH ([] : List FlagElement) (sumWeights []) l t w h = some [] := rfl
          rw [hnil] at hd
          injection hd with hd
          intro r hr
          rw [← hd] at hr
          simp at hr
        | cons el rest =>
          have htot : sumWeights (el :: rest) ≠ 0 := by
            intro hz
            obtain ⟨g0, p0⟩ := el
            rw [drawElemsH, if_pos hz] at hd
            exact absurd hd (by simp)
          have hsz : felsSize (el :: rest) ≤ n := by
            simp only [fgSize] at hn
            omega
          intro r hr
          have hwn := ihH (el :: rest) (sumWeights (el :: rest)) l t w h rects hsz hd r hr
          have hcancel : sumWeights (el :: rest) * w / sumWeights (el :: rest) = w :=
            Nat.mul_div_cancel_left w (Nat.pos_of_ne_zero htot)
          rw [hcancel] at hwn
          exact hwn
      | Vertical els =>
        rw [drawArea] at hd
        cases els with
        | nil =>
          have hnil : drawElemsV ([] : List FlagElement) (sumWeights []) l t w h = some [] := rfl
          rw [hnil] at hd
          injection hd with hd
          intro r hr
          rw [← hd] at hr
          simp at hr
        | cons el rest =>
          have htot : sumWeights (el :: rest) ≠ 0 := by
            intro hz
            obtain ⟨g0, p0⟩ := el
            rw [drawElemsV, if_pos hz] at hd
            exact absurd hd (by simp)
          have hsz : felsSize (el :: rest) ≤ n := by
            simp only [fgSize] at hn
            omega
          intro r hr
          have hwn := ihV (el :: rest) (sumWeights (el :: rest)) l t w h rects hsz hd r hr
          have hcancel : sumWeights (el :: rest) * h / sumWeights (el :: rest) = h :=
            Nat.mul_div_cancel_left h (Nat.pos_of_ne_zero htot)
          rw [hcancel] at hwn
          exact hwn
    · intro els total off t w h rects hn hd
      cases els with
      | nil =>
        have hnil : drawElemsH ([] : List FlagElement) total off t w h = some [] := rfl
        rw [hnil] at hd
        injection hd with hd
        intro r hr
        rw [← hd] at hr
        simp at hr
      | cons el rest =>
        obtain ⟨g, p⟩ := el
        have hszg : fgSize g ≤ n := by
          simp only [felsSize] at hn
          omega
        have hszr : felsSize rest ≤ n := by
          simp only [felsSize] at hn
          omega
        rw [drawElemsH] at hd
        by_cases hz : total = 0
        · rw [if_pos hz] at hd
          exact absurd hd (by simp)
        · rw [if_neg hz] at hd
          rcases hda : drawArea g off t (p * w / total) h with _ | rs1 <;> rw [hda] at hd
          · exact absurd hd (by simp)
          · rcases hdr : drawElemsH rest total (off + p * w / total) t w h with _ | rs2 <;>
              rw [hdr] at hd
            · exact absurd hd (by simp)
            · injection hd with hd
              intro r hr
              rw [← hd] at hr
              have hsum : sumWeights (FlagElement.mk g p :: rest) = p + sumWeights rest := by
                simp [sumWeights]
              have hext : p * w / total + sumWeights rest * w / total ≤
                  sumWeights (FlagElement.mk g p :: rest) * w / total := by
                rw [hsum, Nat.add_mul]
                exact nat_div_add_div_le (p * w) (sumWeights rest * w) total
              have hb := Nat.zero_le (p * w / total)
              have hc := Nat.zero_le (sumWeights rest * w / total)
              rcases List.mem_append.mp hr with hr | hr
              · obtain ⟨h1, h2, h3, h4⟩ := ihA g off t (p * w / total) h rs1 hszg hda r hr
                exact ⟨h1, by omega, h3, h4⟩
              · obtain ⟨h1, h2, h3, h4⟩ :=
                  ihH rest total (off + p * w / total) t w h rs2 hszr hdr r hr
                exact ⟨by omega, by omega, h3, h4⟩
    · intro els total l off w h rects hn hd
      cases els with
      | nil =>
        have hnil : drawElemsV ([] : List FlagElement) total l off w h = some [] := rfl
        rw [hnil] at hd
        injection hd with hd
        intro r hr
        rw [← hd] at hr
        simp at hr
      | cons el rest =>
        obtain ⟨g, p⟩ := el
        have hszg : fgSize g ≤ n := by
          simp only [felsSize] at hn
          omega
        have hszr : felsSize rest ≤ n := by
          simp only [felsSize] at hn
          omega
        rw [drawElemsV] at hd
        by_cases hz : total = 0
        · rw [if_pos hz] at hd
          exact absurd hd (by simp)
        · rw [if_neg hz] at hd
          rcases hda : drawArea g l off w (p * h / total) with _ | rs1 <;> rw [hda] at hd
          · exact absurd hd (by simp)
          · rcases hdr : drawElemsV rest total l (off + p * h / total) w h with _ | rs2 <;>
              rw [hdr] at hd
            · exact absurd hd (by simp)
            · injection hd with hd
              intro r hr
              rw [← hd] at hr
              have hsum : sumWeights (FlagElement.mk g p :: rest) = p + sumWeights rest := by
                simp [sumWeights]
              have hext : p * h / total + sumWeights rest * h / total ≤
                  sumWeights (FlagElement.mk g p :: rest) * h / total := by
                rw [hsum, Nat.add_mul]
                exact nat_div_add_div_le (p * h) (sumWeights rest * h) total
              have hb := Nat.zero_le (p * h / total)
              have hc := Nat.zero_le (sumWeights rest * h / total)
              rcases List.mem_append.mp hr with hr | hr
              · obtain ⟨h1, h2, h3, h4⟩ := ihA g l off w (p * h / total) rs1 hszg hda r hr
                exact ⟨h1, h2, h3, by omega⟩
              · obtain ⟨h1, h2, h3, h4⟩ :=
                  ihV rest total l (off + p * h / total) w h rs2 hszr hdr r hr
                exact ⟨h1, h2, by omega, by omega⟩

/-- Every rectangle emitted by `draw_area` lies inside the assigned
rectangle. -/
theorem drawArea_within (g : FlagGeometry) (l t w h : Nat) (rects : List Rect)
    (hd : drawArea g l t w h = some rects) : ∀ r ∈ rects, r.within l t w h :=
  (draw_within_bounded (fgSize g)).1 g l t w h rects (Nat.le_refl _) hd

theorem applyRects_untouched (rects : List Rect) (canvas : Canvas) (x y : Nat)
    (h : ∀ r ∈ rects, ¬ r.covers x y) : applyRects canvas rects x y = canvas x y := by
  induction rects generalizing canvas with
  | nil => simp [applyRects]
  | cons r rest ih =>
    rw [applyRects, List.foldl_cons]
    rw [show List.foldl applyRect (applyRect canvas r) rest = applyRects (applyRect canvas r) rest from rfl]
    rw [ih (applyRect canvas r) (fun q hq => h q (List.mem_cons_of_mem r hq))]
    rw [applyRect, if_neg (h r (List.mem_cons_self r rest))]

/-! ## Claim C4 -/

/-- C4: drawing writes no pixel outside the assigned rectangle — every
pixel outside `[l, l+w) × [t, t+h)` keeps whatever value the canvas held
before — and with weights `[1, 1, 1]` over width 100 the children get
extents `[33, 33, 33]` at offsets 0, 33, 66, leaving the pixel column
`x = 99` unpainted: the canvas keeps its prior value there. -/
theorem rounding_leftover_unpainted :
    (∀ (g : FlagGeometry) (l t w h : Nat) (rects : List Rect) (canvas : Canvas) (x y : Nat),
      drawArea g l t w h = some rects →
      (x < l ∨ l + w ≤ x ∨ y < t ∨ t + h ≤ y) →
      applyRects canvas rects x y = canvas x y) ∧
    drawArea (.Horizontal [.mk (.Solid .Blue) 1, .mk (.Solid .White) 1, .mk (.Solid .Red) 1])
      0 0 100 50 =
      some [⟨0, 0, 33, 50, .Blue⟩, ⟨33, 0, 33, 50, .White⟩, ⟨66, 0, 33, 50, .Red⟩] ∧
    (∀ (canvas : Canvas) (y : Nat),
      applyRects canvas [⟨0, 0, 33, 50, .Blue⟩, ⟨33, 0, 33, 50, .White⟩, ⟨66, 0, 33, 50, .Red⟩]
        99 y = canvas 99 y) := by
  refine ⟨?_, rfl, ?_⟩
  · intro g l t w h rects canvas x y hd hout
    apply applyRects_untouched
    intro r hr
    obtain ⟨h1, h2, h3, h4⟩ := drawArea_within g l t w h rects hd r hr
    rw [Rect.covers]
    omega
  · intro canvas y
    apply applyRects_untouched
    intro r hr
    simp only [List.mem_cons, List.mem_singleton] at hr
    rcases hr with rfl | rfl | rfl | hfalse
    · simp [Rect.covers]
    · simp [Rect.covers]
    · simp [Rect.covers]
    · simp at hfalse

/-- Witness for `rounding_leftover_unpainted`. -/
theorem rounding_leftover_unpainted_witness :
    applyRects (fun _ _ => ((0 : Nat), (0 : Nat), (0 : Nat)))
      [⟨0, 0, 33, 50, .Blue⟩, ⟨33, 0, 33, 50, .White⟩, ⟨66, 0, 33, 50, .Red⟩] 100 0 =
      (fun _ _ => ((0 : Nat), (0 : Nat), (0 : Nat)) : Canvas) 100 0 :=
  rounding_leftover_unpainted.1
    (.Horizontal [.mk (.Solid .Blue) 1, .mk (.Solid .White) 1, .mk (.Solid .Red) 1])
    0 0 100 50
    [⟨0, 0, 33, 50, .Blue⟩, ⟨33, 0, 33, 50, .White⟩, ⟨66, 0, 33, 50, .Red⟩]
    (fun _ _ => ((0 : Nat), (0 : Nat), (0 : Nat))) 100 0
    rounding_leftover_unpainted.2.1 (by omega)

/-! ## Resolution termination and divergence (claim C9) -/

mutual
/-- Node count of an unresolved geometry (for induction only). -/
def ugSize : UnresolvedFlagGeometry → Nat
  | .Solid _ => 1
  | .Reference _ => 1
  | .Tag _ g => ugSize g + 1
  | .Horizontal els => uelsSize els + 1
  | .Vertical els => uelsSize els + 1

/-- Node count of an unresolved element list (for induction only). -/
def uelsSize : List UnresolvedFlagElement → Nat
  | [] => 0
  | .mk g _ :: rest => ugSize g + uelsSize rest + 1
end

theorem resolveElems_mapM_mono (els : List UnresolvedFlagElement) (table : TagMap)
    (f f' : Nat) (hle : f ≤ f') (opts : List (Option FlagElement))
    (h : els.mapM (fun el =>
        match el with
        | .mk geo weight =>
          (resolveF f geo table).map (Option.map (fun fg => FlagElement.mk fg weight))) =
      some opts) :
    els.mapM (fun el =>
        match el with
        | .mk geo weight =>
          (resolveF f' geo table).map (Option.map (fun fg => FlagElement.mk fg weight))) =
      some opts := by
  apply mapM_option_mono _ _ els ?_ opts h
  rintro ⟨geo, weight⟩ hmem b hb
  simp only at hb ⊢
  rcases hr : resolveF f geo table with _ | og <;> rw [hr] at hb
  · simp at hb
  · rw [resolveF_mono f f' hle geo table og hr]
    exact hb

/-- If every tag reference occurring in a geometry can itself be resolved
at some depth, the geometry resolves at some depth; stated over a size
bound to drive the induction through the nested geometry type. -/
theorem resolve_of_refs_bounded : ∀ n : Nat,
    (∀ (g : UnresolvedFlagGeometry) (table : TagMap), ugSize g ≤ n →
      (∀ u ∈ refsIn g, ∃ f r, resolveF f (.Reference u) table = some r) →
      ∃ f r, resolveF f g table = some r) ∧
    (∀ (els : List UnresolvedFlagElement) (table : TagMap), uelsSize els ≤ n →
      (∀ u ∈ refsInElements els, ∃ f r, resolveF f (.Reference u) table = some r) →
      ∃ f opts, els.mapM (fun el =>
        match el with
        | .mk geo weight =>
          (resolveF f geo table).map (Option.map (fun fg => FlagElement.mk fg weight))) =
        some opts) := by
  intro n
  induction n with
  | zero =>
    constructor
    · intro g table hn
      exact absurd hn (by cases g <;> simp [ugSize])
    · intro els table hn hrefs
      cases els with
      | nil => exact ⟨0, [], rfl⟩
      | cons el rest =>
        obtain ⟨g, p⟩ := el
        exact absurd hn (by
          simp only [uelsSize]
          have : 1 ≤ ugSize g := by cases g <;> simp [ugSize]
          omega)
  | succ n ih =>
    obtain ⟨ihG, ihE⟩ := ih
    constructor
    · intro g table hn hrefs
      cases g with
      | Solid color => exact ⟨1, some (.Solid color), rfl⟩
      | Reference t =>
        exact hrefs t (by simp [refsIn])
      | Tag t geo =>
        obtain ⟨f, r, hf⟩ := ihG geo table
          (by simp only [ugSize] at hn; omega)
          (by intro u hu; exact hrefs u (by simpa [refsIn] using hu))
        exact ⟨f + 1, r, by rw [resolveF]; exact hf⟩
      | Horizontal els =>
        obtain ⟨f, opts, hf⟩ := ihE els table
          (by simp only [ugSize] at hn; omega)
          (by intro u hu; exact hrefs u (by simpa [refsIn] using hu))
        refine ⟨f + 1, some (.Horizontal (opts.filterMap id)), ?_⟩
        rw [resolveF, hf]
      | Vertical els =>
        obtain ⟨f, opts, hf⟩ := ihE els table
          (by simp only [ugSize] at hn; omega)
          (by intro u hu; exact hrefs u (by simpa [refsIn] using hu))
        refine ⟨f + 1, some (.Vertical (opts.filterMap id)), ?_⟩
        rw [resolveF, hf]
    · intro els table hn hrefs
      cases els with
      | nil => exact ⟨0, [], rfl⟩
      | cons el rest =>
        obtain ⟨g, p⟩ := el
        obtain ⟨f1, r1, hf1⟩ := ihG g table
          (by simp only [uelsSize] at hn; omega)
          (by intro u hu; apply hrefs u; simp only [refsInElements]; exact List.mem_append.mpr (Or.inl hu))
        obtain ⟨f2, opts2, hf2⟩ := ihE rest table
          (by simp only [uelsSize] at hn; omega)
          (by intro u hu; apply hrefs u; simp only [refsInElements]; exact List.mem_append.mpr (Or.inr hu))
        refine ⟨max f1 f2, Option.map (fun fg => FlagElement.mk fg p) r1 :: opts2, ?_⟩
        rw [List.mapM_cons]
        have hg : resolveF (max f1 f2) g table = some r1 :=
          resolveF_mono f1 (max f1 f2) (Nat.le_max_left f1 f2) g table r1 hf1
        have hrest := resolveElems_mapM_mono rest table f2 (max f1 f2)
          (Nat.le_max_right f1 f2) opts2 hf2
        simp only [hg, hrest, Option.map_some]
        rfl

/-- In an acyclic tag table every single reference resolves at some
depth. -/
theorem reference_resolves_of_acyclic (table : TagMap) (hac : AcyclicTags table) :
    ∀ t : List Char, ∃ f r, resolveF f (.Reference t) table = some r := by
  intro t
  induction t using WellFounded.induction hac with
  | _ t ih =>
    rcases hl : lookupTag table t with _ | g
    · exact ⟨1, none, by rw [resolveF, hl]⟩
    · obtain ⟨f, r, hf⟩ := (resolve_of_refs_bounded (ugSize g)).1 g table (Nat.le_refl _)
        (fun u hu => ih u ⟨g, hl, hu⟩)
      exact ⟨f + 1, r, by rw [resolveF, hl]; exact hf⟩

/-- The divergent example for C9: `(t x (h 1 (r x) 1 (s b)))` — its tag
table binds `x` back to the split containing `(r x)`. -/
def cyclicSplit : UnresolvedFlagGeometry :=
  .Horizontal [.mk (.Reference ['x']) 1, .mk (.Solid .Blue) 1]

theorem cyclic_example_diverges : ∀ fuel : Nat,
    resolveF fuel (.Horizontal [.mk (.Reference ['x']) 1, .mk (.Solid .Blue) 1])
      [(['x'], .Horizontal [.mk (.Reference ['x']) 1, .mk (.Solid .Blue) 1])] = none ∧
    resolveF fuel (.Reference ['x'])
      [(['x'], .Horizontal [.mk (.Reference ['x']) 1, .mk (.Solid .Blue) 1])] = none := by
  intro fuel
  induction fuel with
  | zero => exact ⟨rfl, rfl⟩
  | succ f ih =>
    obtain ⟨ihG, ihR⟩ := ih
    constructor
    · rw [resolveF, List.mapM_cons]
      simp [ihR]
    · rw [resolveF,
        show lookupTag [(['x'], UnresolvedFlagGeometry.Horizontal
            [.mk (.Reference ['x']) 1, .mk (.Solid .Blue) 1])] ['x'] =
          some (.Horizontal [.mk (.Reference ['x']) 1, .mk (.Solid .Blue) 1]) from rfl]
      exact ihG

/-! ## Claim C9 -/

/-- C9: recursive tag resolution terminates (the fueled resolver succeeds
at some depth, hence at all larger depths by `resolveF_mono`) for every
geometry over a tag table whose tag-reference chains are acyclic; and for
the self-referencing chain of `(t x (h 1 (r x) 1 (s b)))` — whose
collected table binds `x` to the split that contains `(r x)` — the
resolver re-expands the reference forever: no recursion depth whatsoever
completes, i.e. the unbounded Rust recursion diverges (there is no cycle
detection). -/
theorem tag_resolution_termination_and_divergence :
    (∀ (table : TagMap) (g : UnresolvedFlagGeometry), AcyclicTags table →
      ∃ fuel r, resolveF fuel g table = some r) ∧
    UnresolvedFlagGeometry.tags (.Tag ['x'] cyclicSplit) = [(['x'], cyclicSplit)] ∧
    (∀ fuel : Nat,
      resolveF fuel (.Tag ['x'] cyclicSplit) [(['x'], cyclicSplit)] = none) := by
  refine ⟨?_, rfl, ?_⟩
  · intro table g hac
    exact (resolve_of_refs_bounded (ugSize g)).1 g table (Nat.le_refl _)
      (fun u _ => reference_resolves_of_acyclic table hac u)
  · intro fuel
    cases fuel with
    | zero => rfl
    | succ f =>
      rw [resolveF]
      exact (cyclic_example_diverges f).1

/-- Witness for `tag_resolution_termination_and_divergence`: the
one-binding table `x ↦ Solid Blue` has no tag-reference step at all, so it
is acyclic, and resolving `(r x)` over it terminates. -/
theorem tag_resolution_termination_and_divergence_witness :
    ∃ fuel r, resolveF fuel (.Reference ['x']) [(['x'], .Solid .Blue)] = some r := by
  apply tag_resolution_termination_and_divergence.1
  constructor
  intro t
  apply Acc.intro
  rintro u ⟨g, hl, hu⟩
  exfalso
  by_cases ht : t = ['x']
  · subst ht
    rw [show lookupTag [(['x'], UnresolvedFlagGeometry.Solid .Blue)] ['x'] =
        some (.Solid .Blue) from rfl] at hl
    injection hl with hl
    rw [← hl] at hu
    simp [refsIn] at hu
  · have hnone : lookupTag [(['x'], UnresolvedFlagGeometry.Solid .Blue)] t = none := by
      simp only [lookupTag, List.reverse_cons, List.reverse_nil, List.nil_append, List.find?]
      rw [decide_eq_false (fun he => ht he.symm)]
      rfl
    rw [hnone] at hl
    exact absurd hl (by simp)

/-! ## Claim C7 -/

/-- C7 counterexample: the input `"( "` contains a non-whitespace
character, yet `SExpr::parse` returns `None` on it (the open list's
remaining input is all whitespace, so the recursive child parse returns
`None` and the `?` operator aborts the whole parse). -/
theorem parse_some_on_nonws_counterexample :
    (∃ c ∈ "( ".toList, ¬ c.isWhitespace) ∧ (parseTop "( ".toList).1 = none := by
  constructor
  · exact ⟨'(', by decide, by decide⟩
  · simp [parseTop, parseLoop, skipWs]

/-- C7 (amended): parsing returns a node for every non-empty input whose
final character is not whitespace (such inputs never trigger the `?`
abort), and returns no node on inputs exhausted without content (empty or
all-whitespace); inputs with trailing whitespace after an unclosed `(` can
yield no node even though non-whitespace content is present.  Unbalanced
parentheses as such are not rejected: a missing closing `)` parses
silently to end of input, e.g. `"(a"` parses to the list `(a)`. -/
theorem parse_none_only_without_usable_content :
    (∀ input : List Char, input ≠ [] → lastNonWs input → ((parseTop input).1).isSome) ∧
    (∀ input : List Char, (∀ c ∈ input, c.isWhitespace) → (parseTop input).1 = none) ∧
    (parseTop "(a".toList).1 = some (.slist [.lit ['a']]) := by
  refine ⟨?_, ?_, ?_⟩
  · intro input hne hlast
    obtain ⟨y, r, hy⟩ := parseLoop_lastNonWs none input hlast (Or.inr hne)
    rw [parseTop, hy]
    simp
  · intro input hws
    rw [parseTop, parseLoop_all_ws input hws]
  · simp [parseTop, parseLoop, skipWs]

/-- Witness for `parse_none_only_without_usable_content`. -/
theorem parse_none_only_without_usable_content_witness :
    ((parseTop ['a']).1).isSome ∧ (parseTop [' ']).1 = none :=
  ⟨parse_none_only_without_usable_content.1 ['a'] (by decide)
      (fun c hc => by simp at hc; rw [← hc]; decide),
    parse_none_only_without_usable_content.2.1 [' '] (by decide)⟩

/-! ## Claim C8 -/

/-- C8 counterexample: a stray `')'` at a position where a node may start
IS consumed as part of an atom: `")"` parses to the atom `")"`, and
`"( )"` parses to a list containing the atom `")"`. -/
theorem atom_no_paren_counterexample :
    (parseTop ")".toList).1 = some (.lit [')']) ∧
      (parseTop "( )".toList).1 = some (.slist [.lit [')']]) := by
  constructor
  · simp [parseTop, parseLoop, skipWs]
  · simp [parseTop, parseLoop, skipWs]

/-- C8 (amended): every atom produced by the parser, at every nesting
depth, is a non-empty run of non-whitespace characters in which `'('`
never occurs FIRST (a leading `'('` always starts a list) and `')'` occurs
AT MOST first (an atom begun by any other character never absorbs a `')'`,
but an atom can begin with a stray `')'`, and `'('` can occur in later
positions); e.g. `"a(b"` parses to the single atom `a(b`. -/
theorem parse_atom_character_shape :
    (∀ (input : List Char) (x : SExpr), (parseTop input).1 = some x → AtomsWellFormed x) ∧
    (parseTop "a(b".toList).1 = some (.lit ['a', '(', 'b']) := by
  constructor
  · exact parseTop_atoms_wf
  · simp [parseTop, parseLoop, skipWs]

/-- Witness for `parse_atom_character_shape`. -/
theorem parse_atom_character_shape_witness : AtomsWellFormed (.lit ['a']) :=
  parse_atom_character_shape.1 ['a'] (.lit ['a'])
    (by simp [parseTop, parseLoop, skipWs])
